import Mathlib

/-!
Verification of the link-pattern substitution layer of
`tiddlywebplugins/markdown.py` (markdown2-based wikitext renderer).

The embedding works over `List Char` as the text representation (Python
string indices are character indices).  Python strings are reflected as
Lean `String`/`List Char`; the external collaborators (markdown2's
`g_escape_table` and `_hash_text`, tiddlyspace's `space_uri`,
tiddlyweb's `encode_name`) are abstract parameters, as the spec declares
them opaque interfaces.  Fallible strategy calls live in `Except`.
-/

set_option maxRecDepth 4000

/-- Python `s.split("|", 1)` when it yields two pieces: splits at the FIRST
occurrence of the separator.  `none` models the single-piece result (the
`ValueError` branch on unpacking into two variables). -/
def splitFirst (sep : Char) : List Char → Option (List Char × List Char)
  | [] => none
  | c :: rest =>
    if c = sep then some ([], rest)
    else (splitFirst sep rest).map fun p => (c :: p.1, p.2)

/-- A regex match as the engine consumes it: span (character offsets,
exclusive end, as in Python `match.span()`) and the captured groups
(`match.groups()`). -/
structure LinkMatch where
  start : Nat
  stop : Nat
  groups : List String
deriving DecidableEq, Repr

/-- Possible shapes of a replacement strategy's return value: a bare
string scalar, or an `(href, title)` pair. -/
inductive PyComponents where
  | str : String → PyComponents
  | pair : String → String → PyComponents
deriving DecidableEq, Repr

/-- `FreeLinker.__call__` (markdown.py lines 70-81): takes the match's
first group, splits it on the first pipe into `label|page` (the whole
group being both when there is no pipe) and returns the `(page, label)`
pair, i.e. `(href, title)`.  The stored `base` is unused by `__call__`,
as in the source. -/
def FreeLinker_call (_base : String) (m : LinkMatch) : PyComponents :=
  let link := m.groups.getD 0 ""
  match splitFirst '|' link.data with
  | some (label, page) => .pair (String.mk page) (String.mk label)
  | none => .pair link link

/-- `SpaceLinker.__call__` (markdown.py lines 46-67).  `spaceUri` models
the external `space_uri(self.environ, space_name)` lookup (the environ
is already applied); `encodeName` models tiddlyweb's `encode_name`.
A failing lookup is an `Except.error`, which propagates.  The
`getD _ ""` defaults are unreachable for the regexes this strategy is
attached to (one or two capture groups; Python would raise IndexError
on an empty group tuple). -/
def SpaceLinker_call {E : Type} (spaceUri : String → Except E String)
    (encodeName : String → String) (m : LinkMatch) : Except E PyComponents :=
  if m.groups.length = 1 then
    let space_name := m.groups.getD 0 ""
    match spaceUri space_name with
    | Except.ok url => Except.ok (.pair url ("@" ++ space_name))
    | Except.error e => Except.error e
  else
    let page_name := m.groups.getD 0 ""
    let space_name := m.groups.getD 1 ""
    let lp :=
      match splitFirst '|' page_name.data with
      | some (l, p) => (String.mk l, String.mk p)
      | none => (page_name, page_name)
    match spaceUri space_name with
    | Except.ok url => Except.ok (.pair (url ++ encodeName lp.2) lp.1)
    | Except.error e => Except.error e

/-- Python tuple-unpacking `href, title = components` with the
surrounding `except ValueError` fallback (markdown.py lines 99-104):
a pair unpacks as itself; a scalar string of length exactly two unpacks
into its two characters (no `ValueError` is raised!); any other string
fails to unpack and the handler keeps the whole value as `href`, with
`title` remaining `None`. -/
def unpackComponents : PyComponents → String × Option String
  | .pair h t => (h, some t)
  | .str s =>
    match s.data with
    | [a, b] => (String.mk [a], some (String.mk [b]))
    | _ => (s, none)

/-- A replacement strategy as stored in the registry: the static
template string `r'\1'` (both static entries of `render` use exactly
this template), or a callable object. -/
inductive LinkRepl (E : Type) where
  | template : LinkRepl E
  | callback : (LinkMatch → Except E PyComponents) → LinkRepl E

/-- `match.expand(r'\1')`: the text of capture group 1. -/
def matchExpandBackref1 (m : LinkMatch) : String :=
  m.groups.getD 0 ""

/-- markdown2's `g_escape_table` entries for `*` and `_` (process-salted
md5 placeholder tokens); the table itself lives in the opaque converter,
so the two entries the plugin reads are abstract parameters. -/
structure EscapeTable where
  star : String
  underscore : String
deriving DecidableEq, Repr

/-- Python `s.replace(c, r)` for a one-character pattern: every
occurrence of `c` is replaced by `r`; replacement text is not rescanned. -/
def pyReplaceChar (c : Char) (r : List Char) (s : List Char) : List Char :=
  (s.map fun ch => if ch = c then r else [ch]).flatten

/-- The href escaping chain of `_do_link_patterns` (markdown.py lines
106-110): `href.replace('"', '&quot;').replace('*', tbl['*'])
.replace('_', tbl['_'])`, in that order. -/
def escapeHref (esc : EscapeTable) (href : List Char) : List Char :=
  pyReplaceChar '_' esc.underscore.data
    (pyReplaceChar '*' esc.star.data
      (pyReplaceChar '"' "&quot;".data href))

/-- Python slicing `text[start:stop]`. -/
def pySlice (text : List Char) (start stop : Nat) : List Char :=
  (text.take stop).drop start

/-- Python `text[:start] + repl + text[stop:]`. -/
def pySpliceAt (text : List Char) (start stop : Nat) (repl : List Char) :
    List Char :=
  text.take start ++ repl ++ text.drop stop

/-- `'<a href="%s">%s</a>' % (escaped_href, title)`. -/
def anchorHtml (escapedHref title : List Char) : List Char :=
  "<a href=\"".data ++ escapedHref ++ "\">".data ++ title ++ "</a>".data

/-- Python dict assignment `d[k] = v` on an insertion-ordered
association list (existing key updated in place, new key appended). -/
def dictInsert (m : List (List Char × List Char)) (k v : List Char) :
    List (List Char × List Char) :=
  if m.any fun kv => kv.1 = k then
    m.map fun kv => if kv.1 = k then (k, v) else kv
  else m ++ [(k, v)]

/-- `if not title: title = text[start:end]`: a falsy title (`None` or
the empty string) is replaced by the matched span of the given text. -/
def backfillTitle (text : List Char) (start stop : Nat) :
    Option String → List Char
  | some t => if t.data = [] then pySlice text start stop else t.data
  | none => pySlice text start stop

/-- One iteration of the reverse-order replacement loop of
`_do_link_patterns` (markdown.py lines 105-116): escape the href,
backfill a falsy (`None` or empty) title from the current text's
matched span, build the anchor, hash it, record the hash and splice it
over the span. -/
def spliceReplacement (esc : EscapeTable) (hashText : List Char → List Char)
    (st : List Char × List (List Char × List Char))
    (r : (Nat × Nat) × String × Option String) :
    List Char × List (List Char × List Char) :=
  let link := anchorHtml (escapeHref esc r.2.1.data)
    (backfillTitle st.1 r.1.1 r.1.2 r.2.2)
  let h := hashText link
  (pySpliceAt st.1 r.1.1 r.1.2 h, dictInsert st.2 h link)

/-- The whole `for ... in reversed(replacements)` loop. -/
def applyReplacements (esc : EscapeTable) (hashText : List Char → List Char)
    (text : List Char) (m : List (List Char × List Char))
    (reps : List ((Nat × Nat) × String × Option String)) :
    List Char × List (List Char × List Char) :=
  reps.reverse.foldl (spliceReplacement esc hashText) (text, m)

/-- The gathering loop of `_do_link_patterns` (lines 93-104), one match:
`title = None`; a callable strategy is invoked and its result unpacked
(with the `ValueError` fallback), a template is expanded.  An exception
raised by the strategy itself propagates. -/
def replStep {E : Type} (repl : LinkRepl E) (m : LinkMatch) :
    Except E ((Nat × Nat) × String × Option String) :=
  match repl with
  | .template => Except.ok ((m.start, m.stop), matchExpandBackref1 m, none)
  | .callback f =>
    match f m with
    | Except.ok comps =>
      Except.ok ((m.start, m.stop), unpackComponents comps)
    | Except.error e => Except.error e

/-- `replacements = []; for match in regex.finditer(text): ...append(...)`,
stopping at the first propagating exception. -/
def gatherReplacements {E : Type} (repl : LinkRepl E) :
    List LinkMatch → Except E (List ((Nat × Nat) × String × Option String))
  | [] => Except.ok []
  | m :: ms =>
    match replStep repl m with
    | Except.ok r =>
      match gatherReplacements repl ms with
      | Except.ok rs => Except.ok (r :: rs)
      | Except.error e => Except.error e
    | Except.error e => Except.error e

/-- The outer `for regex, repl in self.link_patterns` loop: per pattern,
find all matches in the current text, gather the replacements, then
splice them in reverse order, threading the text and the shared
`link_from_hash` dict. -/
def runPatterns {E : Type} (esc : EscapeTable)
    (hashText : List Char → List Char) :
    List ((List Char → List LinkMatch) × LinkRepl E) → List Char →
    List (List Char × List Char) →
    Except E (List Char × List (List Char × List Char))
  | [], text, m => Except.ok (text, m)
  | p :: rest, text, m =>
    match gatherReplacements p.2 (p.1 text) with
    | Except.ok reps =>
      let st := applyReplacements esc hashText text m reps
      runPatterns esc hashText rest st.1 st.2
    | Except.error e => Except.error e

/-- Worker for `pyReplaceStr` below. -/
def pyReplaceStrAux (pat repl : List Char) : Nat → List Char → List Char
  | _, [] => []
  | 0, s => s
  | fuel + 1, c :: rest =>
    if pat.isPrefixOf (c :: rest) ∧ pat ≠ [] then
      repl ++ pyReplaceStrAux pat repl fuel ((c :: rest).drop pat.length)
    else c :: pyReplaceStrAux pat repl fuel rest

/-- Python `text.replace(pat, repl)` for a nonempty pattern: leftmost
non-overlapping occurrences, replacement text not rescanned.  (The
engine only ever calls this with hash tokens as patterns; an empty
pattern is modelled as the identity.)  The fuel argument of the worker
is a structural-recursion device; every step consumes at least one
character, so `text.length` fuel is always sufficient. -/
def pyReplaceStr (pat repl s : List Char) : List Char :=
  pyReplaceStrAux pat repl s.length s

/-- `Markdown._do_link_patterns` (markdown.py lines 90-119): run every
pattern, then expand every recorded hash back to its anchor HTML in one
final pass over the dict (insertion order). -/
def do_link_patterns {E : Type} (esc : EscapeTable)
    (hashText : List Char → List Char)
    (link_patterns : List ((List Char → List LinkMatch) × LinkRepl E))
    (text : List Char) : Except E (List Char) :=
  match runPatterns esc hashText link_patterns text [] with
  | Except.ok (t, m) =>
    Except.ok (m.foldl (fun acc kv => pyReplaceStr kv.1 kv.2 acc) t)
  | Except.error e => Except.error e

/-- The names of the six compiled regexes of the `PATTERNS` dict. -/
inductive PatternName where
  | freelink | wikilink | barelink | spacelink | spacewikilink | spacefreelink
deriving DecidableEq, Repr

/-- The registry builder of `render` (markdown.py lines 122-141): with a
configured `markdown.wiki_link_base` the list starts as
`[freelink/FreeLinker, wikilink/r'\1', barelink/r'\1']`, and when tenant
support imported, each of `spacelink, spacewikilink, spacefreelink` is
`insert(0, ...)`-ed in that loop order with a `SpaceLinker`; with no
configured base the registry is empty. -/
def render_link_patterns {E : Type} (spaceUri : String → Except E String)
    (encodeName : String → String) (wiki_link_base : Option String)
    (tenantSupport : Bool) : List (PatternName × LinkRepl E) :=
  match wiki_link_base with
  | none => []
  | some base =>
    let lp : List (PatternName × LinkRepl E) :=
      [(.freelink, .callback fun m => Except.ok (FreeLinker_call base m)),
       (.wikilink, .template),
       (.barelink, .template)]
    if tenantSupport then
      [PatternName.spacelink, PatternName.spacewikilink,
        PatternName.spacefreelink].foldl
        (fun acc p =>
          (p, .callback (SpaceLinker_call spaceUri encodeName)) :: acc) lp
    else lp

/-! ### The three compiled regexes of `PATTERNS` used by a plain render

Hand-derived deterministic scanners for `re.finditer` over the three
patterns attached to non-tenant rendering.  Character classes follow the
ASCII fragment of Python's `\w` and `\s` (the claims only exercise
ASCII text). -/

def isUpperAZ (c : Char) : Bool := 'A' ≤ c && c ≤ 'Z'

def isLowerAZ (c : Char) : Bool := 'a' ≤ c && c ≤ 'z'

def isDigit09 (c : Char) : Bool := '0' ≤ c && c ≤ '9'

/-- `\w` (ASCII fragment). -/
def isWordChar (c : Char) : Bool :=
  isUpperAZ c || isLowerAZ c || isDigit09 c || c = '_'

/-- `\s` (ASCII fragment). -/
def isSpaceChar (c : Char) : Bool :=
  c = ' ' || c = '\t' || c = '\n' || c = '\r' || c = '\x0b' || c = '\x0c'

/-- The lazy interior of `\[\[(.+?)\]\]` once `[[` has been consumed:
extend the interior (`.` matches anything but a newline) one character
at a time, closing at the earliest following `]]`; at least one interior
character is required.  Returns the captured interior and the text after
the closing `]]`. -/
def scanInterior : List Char → Option (List Char × List Char)
  | [] => none
  | c :: rest =>
    if c = '\n' then none
    else if rest.take 2 = [']', ']'] then some ([c], rest.drop 2)
    else
      match scanInterior rest with
      | some (int, rest3) => some (c :: int, rest3)
      | none => none

theorem scanInterior_decomp :
    ∀ cs int rest2, scanInterior cs = some (int, rest2) →
      cs = int ++ ']' :: ']' :: rest2 ∧ int ≠ [] := by
  intro cs
  induction cs with
  | nil => intro int rest2 h; simp [scanInterior] at h
  | cons c rest ih =>
    intro int rest2 h
    simp only [scanInterior] at h
    by_cases hn : c = '\n'
    · simp [hn] at h
    · simp only [hn, if_false] at h
      by_cases hcl : rest.take 2 = [']', ']']
      · simp only [hcl, if_true] at h
        obtain ⟨h1, h2⟩ := Option.some.injEq _ _ ▸ h
        have : rest = [']', ']'] ++ rest.drop 2 := by
          conv_lhs => rw [← List.take_append_drop 2 rest]
          rw [hcl]
        cases h
        refine ⟨?_, by simp⟩
        simpa using this
      · simp only [hcl, if_false] at h
        cases hrec : scanInterior rest with
        | none => rw [hrec] at h; simp at h
        | some p =>
          rw [hrec] at h
          obtain ⟨int3, rest3⟩ := p
          simp only [Option.some.injEq, Prod.mk.injEq] at h
          obtain ⟨hi, hr⟩ := h
          obtain ⟨hd, _⟩ := ih int3 rest3 hrec
          subst hi hr
          exact ⟨by simp [hd], by simp⟩

theorem scanInterior_length {cs int rest2 : List Char}
    (h : scanInterior cs = some (int, rest2)) : rest2.length < cs.length := by
  obtain ⟨hd, hne⟩ := scanInterior_decomp cs int rest2 h
  have : cs.length = int.length + (rest2.length + 2) := by
    rw [hd]
    simp only [List.length_append, List.length_cons]
  have hpos : 0 < int.length := List.length_pos.mpr hne
  omega

/-- `re.finditer` for `\[\[(.+?)\]\]` (the `freelink` pattern): leftmost
non-overlapping matches; scanning resumes after each match's closing
`]]`.  Yields `(start offset, captured group)` pairs; the full match is
`[[` ++ group ++ `]]`.  The fuel argument is a structural-recursion
device; every step consumes at least one character, so `text.length`
fuel (as passed by `freelinkMatches`) is always sufficient. -/
def freelinkAux (fuel : Nat) (i : Nat) (cs : List Char) : List (Nat × List Char) :=
  match fuel, cs with
  | _, [] => []
  | 0, _ => []
  | fuel + 1, c :: rest =>
    if c = '[' ∧ rest.head? = some '[' then
      match scanInterior rest.tail with
      | some (int, rest2) =>
        (i, int) :: freelinkAux fuel (i + (int.length + 4)) rest2
      | none => freelinkAux fuel (i + 1) rest
    else freelinkAux fuel (i + 1) rest

def freelinkMatches (text : List Char) : List LinkMatch :=
  (freelinkAux text.length 0 text).map fun p =>
    ⟨p.1, p.1 + (p.2.length + 4), [String.mk p.2]⟩

/-- The `[a-z]+[A-Z]\w+` tail of the `wikilink` pattern
`((?<=\s)[A-Z][a-z]+[A-Z]\w+\b)` after its leading capital.  All
quantifiers are greedy and the involved classes are disjoint, so no
backtracking arises; the trailing `\b` holds automatically after a
maximal `\w+` run.  Returns the consumed characters and the rest. -/
def wikiTail (cs : List Char) : Option (List Char × List Char) :=
  let lows := cs.takeWhile isLowerAZ
  let r1 := cs.dropWhile isLowerAZ
  if lows = [] then none
  else
    match r1 with
    | c2 :: r2 =>
      if isUpperAZ c2 then
        let ws := r2.takeWhile isWordChar
        let r3 := r2.dropWhile isWordChar
        if ws = [] then none else some (lows ++ c2 :: ws, r3)
      else none
    | [] => none

theorem wikiTail_decomp {cs t r : List Char} (h : wikiTail cs = some (t, r)) :
    cs = t ++ r ∧ t ≠ [] := by
  unfold wikiTail at h
  by_cases hl : cs.takeWhile isLowerAZ = []
  · simp [hl] at h
  · simp only [hl, if_false] at h
    cases hr1 : cs.dropWhile isLowerAZ with
    | nil => rw [hr1] at h; simp at h
    | cons c2 r2 =>
      rw [hr1] at h
      by_cases hu : isUpperAZ c2
      · simp only [hu, if_true] at h
        by_cases hw : r2.takeWhile isWordChar = []
        · simp [hw] at h
        · simp only [hw, if_false, Option.some.injEq, Prod.mk.injEq] at h
          obtain ⟨ht, hrr⟩ := h
          subst ht hrr
          constructor
          · have h1 : cs.takeWhile isLowerAZ ++ cs.dropWhile isLowerAZ = cs :=
              List.takeWhile_append_dropWhile _ _
            have h2 : r2.takeWhile isWordChar ++ r2.dropWhile isWordChar = r2 :=
              List.takeWhile_append_dropWhile _ _
            calc cs = cs.takeWhile isLowerAZ ++ cs.dropWhile isLowerAZ := h1.symm
              _ = cs.takeWhile isLowerAZ ++ (c2 :: r2) := by rw [hr1]
              _ = cs.takeWhile isLowerAZ ++
                  (c2 :: (r2.takeWhile isWordChar ++ r2.dropWhile isWordChar)) := by
                    rw [h2]
              _ = (cs.takeWhile isLowerAZ ++ c2 :: r2.takeWhile isWordChar) ++
                    r2.dropWhile isWordChar := by simp
          · simp [hl]
      · simp [hu] at h

/-- `re.finditer` for the `wikilink` pattern: `prevSpace` carries whether
the previous character satisfies the `(?<=\s)` lookbehind (false at the
start of text).  After a match, scanning resumes at the match end; the
last matched character is a word character, so the lookbehind is false
there.  The fuel argument is a structural-recursion device; every step
consumes at least one character, so `text.length` fuel is sufficient. -/
def wikilinkAux (fuel : Nat) (i : Nat) (prevSpace : Bool) (cs : List Char) :
    List (Nat × List Char) :=
  match fuel, cs with
  | _, [] => []
  | 0, _ => []
  | fuel + 1, c :: rest =>
    if prevSpace ∧ isUpperAZ c then
      match wikiTail rest with
      | some (t, r) =>
        (i, c :: t) :: wikilinkAux fuel (i + (t.length + 1)) false r
      | none => wikilinkAux fuel (i + 1) (isSpaceChar c) rest
    else wikilinkAux fuel (i + 1) (isSpaceChar c) rest

def wikilinkMatches (text : List Char) : List LinkMatch :=
  (wikilinkAux text.length 0 false text).map fun p =>
    ⟨p.1, p.1 + p.2.length, [String.mk p.2]⟩

/-- The URL character class `[-\w./#?%=&]` of the `barelink` pattern. -/
def isUrlChar (c : Char) : Bool :=
  c = '-' || isWordChar c || c = '.' || c = '/' || c = '#' || c = '?' ||
    c = '%' || c = '=' || c = '&'

/-- The body `https?://[-\w./#?%=&]+` of the `barelink` pattern at a
fixed start position: `https?` tries the `s` first and the literal
`://` cannot match a URL character, so the split is deterministic; the
greedy `[...]+` needs at least one character.  Returns the consumed
characters and the rest. -/
def tryUrl (cs : List Char) : Option (List Char × List Char) :=
  if "https://".data.isPrefixOf cs then
    if (cs.drop 8).takeWhile isUrlChar = [] then none
    else some ("https://".data ++ (cs.drop 8).takeWhile isUrlChar,
      (cs.drop 8).dropWhile isUrlChar)
  else if "http://".data.isPrefixOf cs then
    if (cs.drop 7).takeWhile isUrlChar = [] then none
    else some ("http://".data ++ (cs.drop 7).takeWhile isUrlChar,
      (cs.drop 7).dropWhile isUrlChar)
  else none

theorem tryUrl_decomp {cs u r : List Char} (h : tryUrl cs = some (u, r)) :
    cs = u ++ r ∧ u ≠ [] := by
  unfold tryUrl at h
  split at h
  · rename_i h8
    split at h
    · exact absurd h (by simp)
    · rename_i hb
      simp only [Option.some.injEq, Prod.mk.injEq] at h
      obtain ⟨hu, hr⟩ := h
      subst hu hr
      refine ⟨?_, by simp⟩
      obtain ⟨t, ht⟩ := List.isPrefixOf_iff_prefix.mp h8
      have hdrop : cs.drop 8 = t := by
        rw [← ht]
        have h88 : ("https://".data).length = 8 := by decide
        rw [← h88, List.drop_left]
      calc cs = "https://".data ++ t := ht.symm
        _ = "https://".data ++ (t.takeWhile isUrlChar ++ t.dropWhile isUrlChar) := by
              rw [List.takeWhile_append_dropWhile]
        _ = ("https://".data ++ (cs.drop 8).takeWhile isUrlChar) ++
              (cs.drop 8).dropWhile isUrlChar := by rw [hdrop]; simp
  · split at h
    · rename_i h7
      split at h
      · exact absurd h (by simp)
      · rename_i hb
        simp only [Option.some.injEq, Prod.mk.injEq] at h
        obtain ⟨hu, hr⟩ := h
        subst hu hr
        refine ⟨?_, by simp⟩
        obtain ⟨t, ht⟩ := List.isPrefixOf_iff_prefix.mp h7
        have hdrop : cs.drop 7 = t := by
          rw [← ht]
          have h77 : ("http://".data).length = 7 := by decide
          rw [← h77, List.drop_left]
        calc cs = "http://".data ++ t := ht.symm
          _ = "http://".data ++ (t.takeWhile isUrlChar ++ t.dropWhile isUrlChar) := by
                rw [List.takeWhile_append_dropWhile]
          _ = ("http://".data ++ (cs.drop 7).takeWhile isUrlChar) ++
                (cs.drop 7).dropWhile isUrlChar := by rw [hdrop]; simp
    · exact absurd h (by simp)

/-- The negative lookbehind `(?<!">|=")`: fails exactly when the two
characters before the current position are `">` or `="` (it succeeds
within the first two characters of the text). -/
def lookbehindBlocked (p2 p1 : Option Char) : Bool :=
  (p2 = some '"' && p1 = some '>') || (p2 = some '=' && p1 = some '"')

/-- `re.finditer` for the `barelink` pattern
`(?<!">|=")(https?://[-\w./#?%=&]+)`: `p2, p1` are the two characters
before the current position (absent at the text start).  After a match,
scanning resumes at the match end with the last two matched characters
as lookbehind context.  The fuel argument is a structural-recursion
device; every step consumes at least one character, so `text.length`
fuel is sufficient. -/
def barelinkAux (fuel : Nat) (i : Nat) (p2 p1 : Option Char) (cs : List Char) :
    List (Nat × List Char) :=
  match fuel, cs with
  | _, [] => []
  | 0, _ => []
  | fuel + 1, c :: rest =>
    if lookbehindBlocked p2 p1 then
      barelinkAux fuel (i + 1) p1 (some c) rest
    else
      match tryUrl (c :: rest) with
      | some (u, r) =>
        (i, u) :: barelinkAux fuel (i + u.length) u.reverse.tail.head? u.reverse.head? r
      | none => barelinkAux fuel (i + 1) p1 (some c) rest

def barelinkMatches (text : List Char) : List LinkMatch :=
  (barelinkAux text.length 0 none none text).map fun p =>
    ⟨p.1, p.1 + p.2.length, [String.mk p.2]⟩

/-! ### Escaping: the sequential `.replace` chain versus the spec's
per-character description -/

/-- The spec's description of href escaping: every double-quote becomes
`&quot;` and every `*` or `_` becomes the converter's escape-table entry
for that character, each original character independently. -/
def escapeHrefSpec (esc : EscapeTable) (href : List Char) : List Char :=
  (href.map fun ch =>
    if ch = '"' then "&quot;".data
    else if ch = '*' then esc.star.data
    else if ch = '_' then esc.underscore.data
    else [ch]).flatten

theorem pyReplaceChar_cons (c : Char) (r : List Char) (x : Char) (s : List Char) :
    pyReplaceChar c r (x :: s) =
      (if x = c then r else [x]) ++ pyReplaceChar c r s := by
  simp [pyReplaceChar]

theorem pyReplaceChar_append (c : Char) (r s1 s2 : List Char) :
    pyReplaceChar c r (s1 ++ s2) =
      pyReplaceChar c r s1 ++ pyReplaceChar c r s2 := by
  simp [pyReplaceChar]

theorem pyReplaceChar_of_not_mem {c : Char} {s : List Char} (r : List Char)
    (h : c ∉ s) : pyReplaceChar c r s = s := by
  induction s with
  | nil => rfl
  | cons x t ih =>
    rw [pyReplaceChar_cons]
    have hx : ¬x = c := fun he => h (he ▸ List.mem_cons_self x t)
    rw [if_neg hx, ih fun hm => h (List.mem_cons_of_mem x hm)]
    rfl

theorem escapeHrefSpec_cons (esc : EscapeTable) (x : Char) (s : List Char) :
    escapeHrefSpec esc (x :: s) =
      (if x = '"' then "&quot;".data
       else if x = '*' then esc.star.data
       else if x = '_' then esc.underscore.data
       else [x]) ++ escapeHrefSpec esc s := by
  simp [escapeHrefSpec]

/-- Since `&quot;` contains neither `*` nor `_`, the sequential
`.replace` chain of the code coincides with the spec's independent
per-character substitution as soon as the escape-table entry for `*`
contains no underscore (true of markdown2's md5-token entries). -/
theorem escapeHref_eq_spec {esc : EscapeTable} (hstar : '_' ∉ esc.star.data)
    (href : List Char) : escapeHref esc href = escapeHrefSpec esc href := by
  induction href with
  | nil => rfl
  | cons x s ih =>
    unfold escapeHref at ih ⊢
    rw [pyReplaceChar_cons, pyReplaceChar_append, pyReplaceChar_append, ih,
      escapeHrefSpec_cons]
    congr 1
    by_cases hq : x = '"'
    · rw [if_pos hq, if_pos hq,
        pyReplaceChar_of_not_mem _ (by decide : '*' ∉ "&quot;".data),
        pyReplaceChar_of_not_mem _ (by decide : '_' ∉ "&quot;".data)]
    · rw [if_neg hq, if_neg hq]
      by_cases hs : x = '*'
      · subst hs
        rw [pyReplaceChar_cons, if_pos rfl]
        show pyReplaceChar '_' esc.underscore.data (esc.star.data ++ pyReplaceChar '*' esc.star.data []) = esc.star.data
        rw [show pyReplaceChar '*' esc.star.data [] = [] from rfl, List.append_nil,
          pyReplaceChar_of_not_mem _ hstar]
      · rw [if_neg hs]
        by_cases hu : x = '_'
        · subst hu
          rw [if_pos rfl,
            pyReplaceChar_of_not_mem _ (by decide : '*' ∉ ['_'])]
          rw [pyReplaceChar_cons, if_pos rfl]
          show esc.underscore.data ++ pyReplaceChar '_' esc.underscore.data [] =
            esc.underscore.data
          rw [show pyReplaceChar '_' esc.underscore.data [] = [] from rfl,
            List.append_nil]
        · have h1 : '*' ∉ [x] := by
            simp only [List.mem_singleton]
            exact fun he => hs he.symm
          have h2 : '_' ∉ [x] := by
            simp only [List.mem_singleton]
            exact fun he => hu he.symm
          rw [if_neg hu, pyReplaceChar_of_not_mem _ h1,
            pyReplaceChar_of_not_mem _ h2]

/-! ### Slicing and splicing -/

/-- Slicing out exactly the middle piece of a three-piece split. -/
theorem pySlice_exact (pre mid post : List Char) :
    pySlice (pre ++ mid ++ post) pre.length (pre.length + mid.length) = mid := by
  unfold pySlice
  rw [List.append_assoc, List.take_append_eq_append_take,
    List.take_of_length_le (by omega), Nat.add_sub_cancel_left,
    List.take_left, List.drop_left]

/-- Splicing at or after `start'` does not change slices that end at or
before `start'`: the title-backfill slice of an earlier replacement is
unaffected by the splices already performed to its right. -/
theorem pySlice_pySpliceAt {text : List Char} {start stop start' stop' : Nat}
    (h1 : stop ≤ start') (h2 : stop ≤ text.length) (repl : List Char) :
    pySlice (pySpliceAt text start' stop' repl) start stop =
      pySlice text start stop := by
  unfold pySlice pySpliceAt
  have hlen : (text.take start').length = min start' text.length :=
    List.length_take start' text
  rw [List.take_append_eq_append_take]
  have hz1 : stop - (text.take start' ++ repl).length = 0 := by
    simp only [List.length_append]
    omega
  rw [hz1, List.take_zero, List.append_nil, List.take_append_eq_append_take]
  have hz2 : stop - (text.take start').length = 0 := by omega
  rw [hz2, List.take_zero, List.append_nil, List.take_take]
  have hm : min stop start' = stop := Nat.min_eq_left h1
  rw [hm]

/-- Splicing with `start ≤ stop ≤ text.length` keeps at least the
`start`-character prefix. -/
theorem pySpliceAt_length_ge {text : List Char} {start stop : Nat}
    (h1 : start ≤ text.length) (repl : List Char) :
    start ≤ (pySpliceAt text start stop repl).length := by
  unfold pySpliceAt
  simp only [List.length_append, List.length_take]
  omega

/-- Backfilling is insensitive to text changes outside the slice. -/
theorem backfillTitle_congr {t1 t2 : List Char} {start stop : Nat}
    (o : Option String)
    (h : pySlice t1 start stop = pySlice t2 start stop) :
    backfillTitle t1 start stop o = backfillTitle t2 start stop o := by
  cases o with
  | none => simpa [backfillTitle] using h
  | some t => simp [backfillTitle, h]

/-! ### The anchor the spec prescribes for one replacement entry -/

/-- The anchor of the specification, built from the ORIGINAL text `text`
of the current pattern pass: href escaped per character
(`escapeHrefSpec`), a `None` or empty title backfilled from the raw
matched source substring `text[start:stop]`. -/
def specLink (esc : EscapeTable) (text : List Char)
    (r : (Nat × Nat) × String × Option String) : List Char :=
  anchorHtml (escapeHrefSpec esc r.2.1.data)
    (backfillTitle text r.1.1 r.1.2 r.2.2)

/-- Replacement spans in strictly descending processing order
(`reversed(replacements)` of ascending non-overlapping matches), each
within bounds of `text`. -/
def DescSpans (text : List Char)
    (rs : List ((Nat × Nat) × String × Option String)) : Prop :=
  rs.Pairwise (fun a b => b.1.2 ≤ a.1.1) ∧
    ∀ r ∈ rs, r.1.1 ≤ r.1.2 ∧ r.1.2 ≤ text.length

/-- The reverse-order splicing loop, characterised against the spec's
per-entry anchor: every processed entry records
`hash (specLink esc text r) ↦ specLink esc text r` and splices the hash
over its span, with all title backfills taken from the text as it stood
at the start of the pass. -/
theorem foldl_spliceReplacement_spec (esc : EscapeTable)
    (hashText : List Char → List Char) (hstar : '_' ∉ esc.star.data) :
    ∀ (rs : List ((Nat × Nat) × String × Option String)) (text : List Char)
      (m : List (List Char × List Char)), DescSpans text rs →
      rs.foldl (spliceReplacement esc hashText) (text, m) =
        (rs.foldl (fun t r => pySpliceAt t r.1.1 r.1.2
            (hashText (specLink esc text r))) text,
         rs.foldl (fun mm r => dictInsert mm (hashText (specLink esc text r))
            (specLink esc text r)) m) := by
  intro rs
  induction rs with
  | nil => intro text m _; rfl
  | cons r rest ih =>
    intro text m hdesc
    obtain ⟨hpair, hbound⟩ := hdesc
    have hr := hbound r (List.mem_cons_self r rest)
    have hhead : ∀ r' ∈ rest, r'.1.2 ≤ r.1.1 :=
      fun r' hr' => (List.pairwise_cons.mp hpair).1 r' hr'
    have hfirst : spliceReplacement esc hashText (text, m) r =
        (pySpliceAt text r.1.1 r.1.2 (hashText (specLink esc text r)),
         dictInsert m (hashText (specLink esc text r)) (specLink esc text r)) := by
      unfold spliceReplacement specLink
      rw [escapeHref_eq_spec hstar]
    have htext1len : r.1.1 ≤ (pySpliceAt text r.1.1 r.1.2
        (hashText (specLink esc text r))).length :=
      pySpliceAt_length_ge (le_trans hr.1 hr.2) _
    have hdesc1 : DescSpans (pySpliceAt text r.1.1 r.1.2
        (hashText (specLink esc text r))) rest := by
      refine ⟨(List.pairwise_cons.mp hpair).2, fun r' hr' => ?_⟩
      have := hbound r' (List.mem_cons_of_mem r hr')
      exact ⟨this.1, le_trans (hhead r' hr') htext1len⟩
    have hslices : ∀ r' ∈ rest,
        specLink esc (pySpliceAt text r.1.1 r.1.2
          (hashText (specLink esc text r))) r' = specLink esc text r' := by
      intro r' hr'
      have hb := hbound r' (List.mem_cons_of_mem r hr')
      have hsl : pySlice (pySpliceAt text r.1.1 r.1.2
            (hashText (specLink esc text r))) r'.1.1 r'.1.2 =
          pySlice text r'.1.1 r'.1.2 :=
        pySlice_pySpliceAt (hhead r' hr') hb.2 _
      show anchorHtml (escapeHrefSpec esc r'.2.1.data) _ =
        anchorHtml (escapeHrefSpec esc r'.2.1.data) _
      rw [backfillTitle_congr r'.2.2 hsl]
    calc (r :: rest).foldl (spliceReplacement esc hashText) (text, m)
        = rest.foldl (spliceReplacement esc hashText)
            (pySpliceAt text r.1.1 r.1.2 (hashText (specLink esc text r)),
             dictInsert m (hashText (specLink esc text r)) (specLink esc text r)) := by
          rw [List.foldl_cons, hfirst]
      _ = (rest.foldl (fun t r' => pySpliceAt t r'.1.1 r'.1.2
              (hashText (specLink esc (pySpliceAt text r.1.1 r.1.2
                (hashText (specLink esc text r))) r'))) (pySpliceAt text r.1.1 r.1.2
                  (hashText (specLink esc text r))),
           rest.foldl (fun mm r' => dictInsert mm
              (hashText (specLink esc (pySpliceAt text r.1.1 r.1.2
                (hashText (specLink esc text r))) r'))
              (specLink esc (pySpliceAt text r.1.1 r.1.2
                (hashText (specLink esc text r))) r'))
             (dictInsert m (hashText (specLink esc text r)) (specLink esc text r))) :=
          ih _ _ hdesc1
      _ = ((r :: rest).foldl (fun t r' => pySpliceAt t r'.1.1 r'.1.2
              (hashText (specLink esc text r'))) text,
           (r :: rest).foldl (fun mm r' => dictInsert mm
              (hashText (specLink esc text r')) (specLink esc text r')) m) := by
          rw [List.foldl_cons, List.foldl_cons]
          congr 1
          · exact List.foldl_ext _ _ _ fun a r' hr' => by rw [hslices r' hr']
          · exact List.foldl_ext _ _ _ fun a r' hr' => by rw [hslices r' hr']

/-! ### The replacement pass characterised over ascending matches -/

/-- Ascending non-overlapping spans within bounds, as `finditer`
produces them. -/
def AscSpans (text : List Char)
    (reps : List ((Nat × Nat) × String × Option String)) : Prop :=
  reps.Pairwise (fun a b => a.1.2 ≤ b.1.1) ∧
    ∀ r ∈ reps, r.1.1 ≤ r.1.2 ∧ r.1.2 ≤ text.length

/-- `applyReplacements` over ascending non-overlapping in-bounds matches:
every match is recorded as the spec's anchor for its own entry (href
escaped per character, falsy title backfilled from the original text's
matched span) under its hash, and its hash is spliced over its span. -/
theorem applyReplacements_spec (esc : EscapeTable)
    (hashText : List Char → List Char) (hstar : '_' ∉ esc.star.data)
    {text : List Char} {reps : List ((Nat × Nat) × String × Option String)}
    {m : List (List Char × List Char)} (hasc : AscSpans text reps) :
    applyReplacements esc hashText text m reps =
      (reps.reverse.foldl (fun t r => pySpliceAt t r.1.1 r.1.2
          (hashText (specLink esc text r))) text,
       reps.reverse.foldl (fun mm r => dictInsert mm
          (hashText (specLink esc text r)) (specLink esc text r)) m) := by
  unfold applyReplacements
  apply foldl_spliceReplacement_spec esc hashText hstar
  obtain ⟨hp, hb⟩ := hasc
  refine ⟨?_, fun r hr => hb r (List.mem_reverse.mp hr)⟩
  rw [List.pairwise_reverse]
  exact hp

/-! ### The gathering loop characterised -/

/-- A template entry gathers, for every match, its span, the expansion
of `r'\1'` (group 1) as href, and no title. -/
theorem gatherReplacements_template {E : Type} (ms : List LinkMatch) :
    gatherReplacements (LinkRepl.template : LinkRepl E) ms =
      Except.ok (ms.map fun m =>
        ((m.start, m.stop), matchExpandBackref1 m, none)) := by
  induction ms with
  | nil => rfl
  | cons m ms ih => simp [gatherReplacements, replStep, ih]

/-- A callback entry whose calls all succeed gathers, for every match,
its span and the unpacking of the callback's value on that match alone. -/
theorem gatherReplacements_callback {E : Type}
    {f : LinkMatch → Except E PyComponents} {g : LinkMatch → PyComponents}
    (hf : ∀ m, f m = Except.ok (g m)) (ms : List LinkMatch) :
    gatherReplacements (LinkRepl.callback f) ms =
      Except.ok (ms.map fun m =>
        ((m.start, m.stop), unpackComponents (g m))) := by
  induction ms with
  | nil => rfl
  | cons m ms ih => simp [gatherReplacements, replStep, hf m, ih]

/-! ### Error propagation -/

/-- A failing callback on the first match of a pattern fails the whole
gather with the same error. -/
theorem gatherReplacements_error_head {E : Type}
    {f : LinkMatch → Except E PyComponents} {m : LinkMatch}
    {ms : List LinkMatch} {e : E} (h : f m = Except.error e) :
    gatherReplacements (LinkRepl.callback f) (m :: ms) = Except.error e := by
  simp [gatherReplacements, replStep, h]

/-- A failing gather on the first registry entry fails the whole pattern
loop with the same error. -/
theorem runPatterns_error_head {E : Type} (esc : EscapeTable)
    (hashText : List Char → List Char)
    {matcher : List Char → List LinkMatch} {repl : LinkRepl E}
    {rest : List ((List Char → List LinkMatch) × LinkRepl E)}
    {text : List Char} {m : List (List Char × List Char)} {e : E}
    (h : gatherReplacements repl (matcher text) = Except.error e) :
    runPatterns esc hashText ((matcher, repl) :: rest) text m =
      Except.error e := by
  simp [runPatterns, h]

/-- A failing pattern loop fails `_do_link_patterns` with the same
error and no text output. -/
theorem do_link_patterns_error {E : Type} (esc : EscapeTable)
    (hashText : List Char → List Char)
    {link_patterns : List ((List Char → List LinkMatch) × LinkRepl E)}
    {text : List Char} {e : E}
    (h : runPatterns esc hashText link_patterns text [] = Except.error e) :
    do_link_patterns esc hashText link_patterns text = Except.error e := by
  simp [do_link_patterns, h]

/-- A failing callback on ANY match of a pattern — all earlier matches
of that pattern succeeding — fails the whole gather with that error
(the first exception raised is the one that propagates). -/
theorem gatherReplacements_error_mid {E : Type}
    {f : LinkMatch → Except E PyComponents} :
    ∀ (ms1 : List LinkMatch) {mm : LinkMatch} {ms2 : List LinkMatch} {e : E},
      (∀ m ∈ ms1, ∃ c, f m = Except.ok c) → f mm = Except.error e →
      gatherReplacements (LinkRepl.callback f) (ms1 ++ mm :: ms2) =
        Except.error e := by
  intro ms1
  induction ms1 with
  | nil =>
    intro mm ms2 e _ he
    exact gatherReplacements_error_head he
  | cons m ms1 ih =>
    intro mm ms2 e hok he
    obtain ⟨c, hc⟩ := hok m (List.mem_cons_self m ms1)
    have hrest := @ih mm ms2 e
      (fun m' hm' => hok m' (List.mem_cons_of_mem m hm')) he
    rw [List.cons_append]
    simp [gatherReplacements, replStep, hc, hrest]

/-- A failing gather on ANY registry entry — all earlier entries having
been processed successfully — fails the whole pattern loop with that
error. -/
theorem runPatterns_error_append {E : Type} (esc : EscapeTable)
    (hashText : List Char → List Char) :
    ∀ (ps1 : List ((List Char → List LinkMatch) × LinkRepl E))
      {matcher : List Char → List LinkMatch} {repl : LinkRepl E}
      {ps2 : List ((List Char → List LinkMatch) × LinkRepl E)}
      {text : List Char} {m : List (List Char × List Char)}
      {t1 : List Char} {m1 : List (List Char × List Char)} {e : E},
      runPatterns esc hashText ps1 text m = Except.ok (t1, m1) →
      gatherReplacements repl (matcher t1) = Except.error e →
      runPatterns esc hashText (ps1 ++ (matcher, repl) :: ps2) text m =
        Except.error e := by
  intro ps1
  induction ps1 with
  | nil =>
    intro matcher repl ps2 text m t1 m1 e hrun hg
    unfold runPatterns at hrun
    simp only [Except.ok.injEq, Prod.mk.injEq] at hrun
    obtain ⟨ht, hm⟩ := hrun
    subst ht hm
    exact runPatterns_error_head esc hashText hg
  | cons p ps1 ih =>
    intro matcher repl ps2 text m t1 m1 e hrun hg
    rw [List.cons_append]
    unfold runPatterns at hrun ⊢
    cases hgp : gatherReplacements p.2 (p.1 text) with
    | error e2 =>
      rw [hgp] at hrun
      cases hrun
    | ok reps =>
      rw [hgp] at hrun
      dsimp only at hrun ⊢
      exact ih hrun hg

/-! ### The placeholder dict invariants -/

/-- Every key of the dict is the hash of its own anchor value. -/
def MapHashed (hashText : List Char → List Char)
    (m : List (List Char × List Char)) : Prop :=
  ∀ kv ∈ m, kv.1 = hashText kv.2

/-- The dict's keys are pairwise distinct. -/
def KeysNodup (m : List (List Char × List Char)) : Prop :=
  (m.map Prod.fst).Nodup

theorem dictInsert_hashed {hashText : List Char → List Char}
    {m : List (List Char × List Char)} {v : List Char}
    (hm : MapHashed hashText m) :
    MapHashed hashText (dictInsert m (hashText v) v) := by
  intro kv hkv
  unfold dictInsert at hkv
  by_cases hc : m.any fun p => p.1 = hashText v
  · rw [if_pos hc] at hkv
    obtain ⟨p, hp, hpe⟩ := List.mem_map.mp hkv
    by_cases hpk : p.1 = hashText v
    · rw [if_pos hpk] at hpe
      subst hpe
      rfl
    · rw [if_neg hpk] at hpe
      subst hpe
      exact hm p hp
  · rw [if_neg hc] at hkv
    rcases List.mem_append.mp hkv with h1 | h2
    · exact hm kv h1
    · have : kv = (hashText v, v) := by simpa using h2
      subst this
      rfl

theorem dictInsert_keysNodup {m : List (List Char × List Char)}
    {k v : List Char} (hm : KeysNodup m) : KeysNodup (dictInsert m k v) := by
  unfold dictInsert KeysNodup
  by_cases hc : m.any fun p => p.1 = k
  · rw [if_pos hc]
    have : ((m.map fun kv => if kv.1 = k then (k, v) else kv).map Prod.fst) =
        m.map Prod.fst := by
      rw [List.map_map]
      apply List.map_congr_left
      intro p _
      by_cases hpk : p.1 = k
      · simp [hpk]
      · simp [hpk]
    rw [this]
    exact hm
  · rw [if_neg hc]
    have hnotin : k ∉ m.map Prod.fst := by
      intro hmem
      obtain ⟨p, hp, hpe⟩ := List.mem_map.mp hmem
      have hall : ∀ x : List Char, (k, x) ∉ m := by simpa using hc
      have hpk : p = (k, p.2) := by rw [← hpe]
      exact hall p.2 (hpk ▸ hp)
    rw [List.map_append]
    simp only [List.map_cons, List.map_nil]
    exact List.Nodup.append hm (List.nodup_singleton k)
      (by simpa [List.disjoint_singleton] using hnotin)

/-- The splicing loop only performs `dictInsert`s of anchors under their
own hash, so it preserves both dict invariants. -/
theorem foldl_spliceReplacement_inv (esc : EscapeTable)
    (hashText : List Char → List Char) :
    ∀ (rs : List ((Nat × Nat) × String × Option String))
      (st : List Char × List (List Char × List Char)),
      MapHashed hashText st.2 → KeysNodup st.2 →
      MapHashed hashText ((rs.foldl (spliceReplacement esc hashText) st).2) ∧
        KeysNodup ((rs.foldl (spliceReplacement esc hashText) st).2) := by
  intro rs
  induction rs with
  | nil => exact fun st h1 h2 => ⟨h1, h2⟩
  | cons r rest ih =>
    intro st h1 h2
    rw [List.foldl_cons]
    exact ih _ (dictInsert_hashed h1) (dictInsert_keysNodup h2)

/-- The pattern loop preserves both dict invariants. -/
theorem runPatterns_inv {E : Type} (esc : EscapeTable)
    (hashText : List Char → List Char) :
    ∀ (link_patterns : List ((List Char → List LinkMatch) × LinkRepl E))
      (text : List Char) (m : List (List Char × List Char))
      (t : List Char) (m' : List (List Char × List Char)),
      MapHashed hashText m → KeysNodup m →
      runPatterns esc hashText link_patterns text m = Except.ok (t, m') →
      MapHashed hashText m' ∧ KeysNodup m' := by
  intro link_patterns
  induction link_patterns with
  | nil =>
    intro text m t m' h1 h2 hrun
    unfold runPatterns at hrun
    simp only [Except.ok.injEq, Prod.mk.injEq] at hrun
    rw [← hrun.2]
    exact ⟨h1, h2⟩
  | cons p rest ih =>
    intro text m t m' h1 h2 hrun
    unfold runPatterns at hrun
    cases hg : gatherReplacements p.2 (p.1 text) with
    | error e => rw [hg] at hrun; cases hrun
    | ok reps =>
      rw [hg] at hrun
      have hinv := foldl_spliceReplacement_inv esc hashText reps.reverse
        (text, m) h1 h2
      exact ih _ _ _ _ hinv.1 hinv.2 hrun

/-! ### Substring occurrence -/

/-- `p` occurs as a contiguous substring of `t`. -/
def isSubOf (p : List Char) : List Char → Bool
  | [] => decide (p = [])
  | c :: rest => p.isPrefixOf (c :: rest) || isSubOf p rest

theorem isSubOf_subset {p t : List Char} (h : isSubOf p t = true) :
    ∀ c ∈ p, c ∈ t := by
  induction t with
  | nil =>
    simp only [isSubOf, decide_eq_true_eq] at h
    subst h
    intro c hc
    cases hc
  | cons x rest ih =>
    simp only [isSubOf, Bool.or_eq_true] at h
    rcases h with h1 | h2
    · exact fun c hc => (List.isPrefixOf_iff_prefix.mp h1).subset hc
    · exact fun c hc => List.mem_cons_of_mem x (ih h2 c hc)

theorem isSubOf_false_of_head_not_mem {c : Char} {p t : List Char}
    (h : c ∉ t) : isSubOf (c :: p) t = false := by
  cases hb : isSubOf (c :: p) t
  · rfl
  · exact absurd (isSubOf_subset hb c (List.mem_cons_self c p)) h

/-! ### Invariants of the freelink scanner -/

/-- Every match reported by the freelink scanner lies at or after the
scan position, captures exactly the interior of a `[[...]]` occurrence
of the scanned suffix at its reported offset, and successive matches are
non-overlapping in ascending order. -/
theorem freelinkAux_spec :
    ∀ (fuel : Nat) (cs : List Char) (i : Nat),
      (∀ p ∈ freelinkAux fuel i cs, i ≤ p.1 ∧
        ∃ pre post, cs = pre ++ ('[' :: '[' :: (p.2 ++ ']' :: ']' :: post)) ∧
          pre.length = p.1 - i) ∧
      (freelinkAux fuel i cs).Pairwise (fun a b => a.1 + (a.2.length + 4) ≤ b.1) := by
  intro fuel
  induction fuel with
  | zero =>
    intro cs i
    constructor
    · intro p hp
      cases cs <;> simp [freelinkAux] at hp
    · cases cs <;> simp [freelinkAux]
  | succ fuel ih =>
    intro cs i
    cases cs with
    | nil => simp [freelinkAux]
    | cons c rest =>
      by_cases hc : c = '[' ∧ rest.head? = some '['
      · obtain ⟨hc1, hc2⟩ := hc
        cases rest with
        | nil => simp at hc2
        | cons c2 rest2 =>
          have hc2' : c2 = '[' := by simpa using hc2
          subst hc1 hc2'
          cases hscan : scanInterior rest2 with
          | none =>
            have heq : freelinkAux (fuel + 1) i ('[' :: '[' :: rest2) =
                freelinkAux fuel (i + 1) ('[' :: rest2) := by
              simp [freelinkAux, hscan]
            rw [heq]
            obtain ⟨hmem, hpair⟩ := ih ('[' :: rest2) (i + 1)
            refine ⟨fun p hp => ?_, hpair⟩
            obtain ⟨hle, pre, post, hdec, hlen⟩ := hmem p hp
            refine ⟨by omega, '[' :: pre, post, ?_, ?_⟩
            · rw [List.cons_append, ← hdec]
            · simp only [List.length_cons]
              omega
          | some ir =>
            obtain ⟨int, rest3⟩ := ir
            have heq : freelinkAux (fuel + 1) i ('[' :: '[' :: rest2) =
                (i, int) :: freelinkAux fuel (i + (int.length + 4)) rest3 := by
              simp [freelinkAux, hscan]
            rw [heq]
            obtain ⟨hdec2, hne⟩ := scanInterior_decomp rest2 int rest3 hscan
            obtain ⟨hmem, hpair⟩ := ih rest3 (i + (int.length + 4))
            constructor
            · intro p hp
              rcases List.mem_cons.mp hp with hhd | htl
              · subst hhd
                refine ⟨le_refl _, [], rest3, ?_, by simp⟩
                simp [hdec2]
              · obtain ⟨hle, pre, post, hdec, hlen⟩ := hmem p htl
                refine ⟨by omega, '[' :: '[' :: int ++ ']' :: ']' :: pre, post, ?_, ?_⟩
                · rw [hdec2, hdec]
                  simp
                · simp only [List.length_cons, List.length_append,
                    List.length_cons]
                  omega
            · rw [List.pairwise_cons]
              refine ⟨fun p hp => ?_, hpair⟩
              have := (hmem p hp).1
              simpa using this
      · have heq : freelinkAux (fuel + 1) i (c :: rest) =
            freelinkAux fuel (i + 1) rest := by
          simp [freelinkAux, hc]
        rw [heq]
        obtain ⟨hmem, hpair⟩ := ih rest (i + 1)
        refine ⟨fun p hp => ?_, hpair⟩
        obtain ⟨hle, pre, post, hdec, hlen⟩ := hmem p hp
        refine ⟨by omega, c :: pre, post, ?_, ?_⟩
        · rw [List.cons_append, ← hdec]
        · simp only [List.length_cons]
          omega

/-! ### Invariants of the wikilink scanner -/

/-- Every character of a `wikilink` match is a word character (in
particular, no double quote and no asterisk can occur in one). -/
theorem wikiTail_chars {cs t r : List Char} (h : wikiTail cs = some (t, r)) :
    ∀ ch ∈ t, isWordChar ch = true := by
  unfold wikiTail at h
  by_cases hl : cs.takeWhile isLowerAZ = []
  · simp [hl] at h
  · simp only [hl, if_false] at h
    cases hr1 : cs.dropWhile isLowerAZ with
    | nil => rw [hr1] at h; simp at h
    | cons c2 r2 =>
      rw [hr1] at h
      by_cases hu : isUpperAZ c2
      · simp only [hu, if_true] at h
        by_cases hw : r2.takeWhile isWordChar = []
        · simp [hw] at h
        · simp only [hw, if_false, Option.some.injEq, Prod.mk.injEq] at h
          obtain ⟨ht, _⟩ := h
          subst ht
          intro ch hch
          rcases List.mem_append.mp hch with h1 | h2
          · have hlo := List.mem_takeWhile_imp h1
            simp [isWordChar, hlo]
          · rcases List.mem_cons.mp h2 with h3 | h4
            · subst h3
              simp [isWordChar, hu]
            · exact List.mem_takeWhile_imp h4
      · simp [hu] at h

/-- Every match reported by the wikilink scanner lies at or after the
scan position, is a nonempty run of word characters occurring verbatim
in the scanned suffix at its reported offset, and successive matches are
non-overlapping in ascending order. -/
theorem wikilinkAux_spec :
    ∀ (fuel : Nat) (cs : List Char) (i : Nat) (b : Bool),
      (∀ p ∈ wikilinkAux fuel i b cs, i ≤ p.1 ∧ p.2 ≠ [] ∧
        (∀ ch ∈ p.2, isWordChar ch = true) ∧
        ∃ pre post, cs = pre ++ (p.2 ++ post) ∧ pre.length = p.1 - i) ∧
      (wikilinkAux fuel i b cs).Pairwise (fun a b => a.1 + a.2.length ≤ b.1) := by
  intro fuel
  induction fuel with
  | zero =>
    intro cs i b
    constructor
    · intro p hp
      cases cs <;> simp [wikilinkAux] at hp
    · cases cs <;> simp [wikilinkAux]
  | succ fuel ih =>
    intro cs i b
    cases cs with
    | nil => simp [wikilinkAux]
    | cons c rest =>
      by_cases hcond : b = true ∧ isUpperAZ c = true
      · cases htail : wikiTail rest with
        | none =>
          have heq : wikilinkAux (fuel + 1) i b (c :: rest) =
              wikilinkAux fuel (i + 1) (isSpaceChar c) rest := by
            simp [wikilinkAux, hcond, htail]
          rw [heq]
          obtain ⟨hmem, hpair⟩ := ih rest (i + 1) (isSpaceChar c)
          refine ⟨fun p hp => ?_, hpair⟩
          obtain ⟨hle, hne, hch, pre, post, hdec, hlen⟩ := hmem p hp
          refine ⟨by omega, hne, hch, c :: pre, post, ?_, ?_⟩
          · rw [List.cons_append, ← hdec]
          · simp only [List.length_cons]
            omega
        | some tr =>
          obtain ⟨t, r⟩ := tr
          have heq : wikilinkAux (fuel + 1) i b (c :: rest) =
              (i, c :: t) :: wikilinkAux fuel (i + (t.length + 1)) false r := by
            simp [wikilinkAux, hcond, htail]
          rw [heq]
          obtain ⟨hdec2, hne2⟩ := wikiTail_decomp htail
          obtain ⟨hmem, hpair⟩ := ih r (i + (t.length + 1)) false
          constructor
          · intro p hp
            rcases List.mem_cons.mp hp with hhd | htl
            · subst hhd
              refine ⟨le_refl _, by simp, ?_, [], r, ?_, by simp⟩
              · intro ch hch
                rcases List.mem_cons.mp hch with h3 | h4
                · subst h3
                  simp [isWordChar, hcond.2]
                · exact wikiTail_chars htail ch h4
              · simp [hdec2]
            · obtain ⟨hle, hne, hch, pre, post, hdec, hlen⟩ := hmem p htl
              refine ⟨by omega, hne, hch, c :: t ++ pre, post, ?_, ?_⟩
              · rw [hdec2, hdec]
                simp
              · simp only [List.length_cons, List.length_append]
                omega
          · rw [List.pairwise_cons]
            refine ⟨fun p hp => ?_, hpair⟩
            have := (hmem p hp).1
            simp only [List.length_cons]
            omega
      · have heq : wikilinkAux (fuel + 1) i b (c :: rest) =
            wikilinkAux fuel (i + 1) (isSpaceChar c) rest := by
          simp only [wikilinkAux]
          rw [if_neg hcond]
        rw [heq]
        obtain ⟨hmem, hpair⟩ := ih rest (i + 1) (isSpaceChar c)
        refine ⟨fun p hp => ?_, hpair⟩
        obtain ⟨hle, hne, hch, pre, post, hdec, hlen⟩ := hmem p hp
        refine ⟨by omega, hne, hch, c :: pre, post, ?_, ?_⟩
        · rw [List.cons_append, ← hdec]
        · simp only [List.length_cons]
          omega

/-! ### Invariants of the barelink scanner -/

/-- A `barelink` match consists of the scheme (whose only non-URL-class
character is the colon) followed by URL-class characters; in particular
no double quote and no asterisk can occur in one. -/
theorem tryUrl_chars {cs u r : List Char} (h : tryUrl cs = some (u, r)) :
    ∀ ch ∈ u, ch = ':' ∨ isUrlChar ch = true := by
  unfold tryUrl at h
  split at h
  · split at h
    · exact absurd h (by simp)
    · simp only [Option.some.injEq, Prod.mk.injEq] at h
      obtain ⟨hu, _⟩ := h
      subst hu
      intro ch hch
      rcases List.mem_append.mp hch with h1 | h2
      · exact (by decide :
          ∀ ch ∈ "https://".data, ch = ':' ∨ isUrlChar ch = true) ch h1
      · exact Or.inr (List.mem_takeWhile_imp h2)
  · split at h
    · split at h
      · exact absurd h (by simp)
      · simp only [Option.some.injEq, Prod.mk.injEq] at h
        obtain ⟨hu, _⟩ := h
        subst hu
        intro ch hch
        rcases List.mem_append.mp hch with h1 | h2
        · exact (by decide :
            ∀ ch ∈ "http://".data, ch = ':' ∨ isUrlChar ch = true) ch h1
        · exact Or.inr (List.mem_takeWhile_imp h2)
    · exact absurd h (by simp)

/-- Every match reported by the barelink scanner lies at or after the
scan position, is a nonempty URL occurring verbatim in the scanned
suffix at its reported offset, and successive matches are
non-overlapping in ascending order. -/
theorem barelinkAux_spec :
    ∀ (fuel : Nat) (cs : List Char) (i : Nat) (p2 p1 : Option Char),
      (∀ p ∈ barelinkAux fuel i p2 p1 cs, i ≤ p.1 ∧ p.2 ≠ [] ∧
        (∀ ch ∈ p.2, ch = ':' ∨ isUrlChar ch = true) ∧
        ∃ pre post, cs = pre ++ (p.2 ++ post) ∧ pre.length = p.1 - i) ∧
      (barelinkAux fuel i p2 p1 cs).Pairwise
        (fun a b => a.1 + a.2.length ≤ b.1) := by
  intro fuel
  induction fuel with
  | zero =>
    intro cs i p2 p1
    constructor
    · intro p hp
      cases cs <;> simp [barelinkAux] at hp
    · cases cs <;> simp [barelinkAux]
  | succ fuel ih =>
    intro cs i p2 p1
    cases cs with
    | nil => simp [barelinkAux]
    | cons c rest =>
      by_cases hblock : lookbehindBlocked p2 p1 = true
      · have heq : barelinkAux (fuel + 1) i p2 p1 (c :: rest) =
            barelinkAux fuel (i + 1) p1 (some c) rest := by
          simp [barelinkAux, hblock]
        rw [heq]
        obtain ⟨hmem, hpair⟩ := ih rest (i + 1) p1 (some c)
        refine ⟨fun p hp => ?_, hpair⟩
        obtain ⟨hle, hne, hch, pre, post, hdec, hlen⟩ := hmem p hp
        refine ⟨by omega, hne, hch, c :: pre, post, ?_, ?_⟩
        · rw [List.cons_append, ← hdec]
        · simp only [List.length_cons]
          omega
      · cases hurl : tryUrl (c :: rest) with
        | none =>
          have heq : barelinkAux (fuel + 1) i p2 p1 (c :: rest) =
              barelinkAux fuel (i + 1) p1 (some c) rest := by
            simp [barelinkAux, hblock, hurl]
          rw [heq]
          obtain ⟨hmem, hpair⟩ := ih rest (i + 1) p1 (some c)
          refine ⟨fun p hp => ?_, hpair⟩
          obtain ⟨hle, hne, hch, pre, post, hdec, hlen⟩ := hmem p hp
          refine ⟨by omega, hne, hch, c :: pre, post, ?_, ?_⟩
          · rw [List.cons_append, ← hdec]
          · simp only [List.length_cons]
            omega
        | some ur =>
          obtain ⟨u, r⟩ := ur
          have heq : barelinkAux (fuel + 1) i p2 p1 (c :: rest) =
              (i, u) :: barelinkAux fuel (i + u.length)
                u.reverse.tail.head? u.reverse.head? r := by
            simp [barelinkAux, hblock, hurl]
          rw [heq]
          obtain ⟨hdec2, hne2⟩ := tryUrl_decomp hurl
          obtain ⟨hmem, hpair⟩ :=
            ih r (i + u.length) u.reverse.tail.head? u.reverse.head?
          constructor
          · intro p hp
            rcases List.mem_cons.mp hp with hhd | htl
            · subst hhd
              exact ⟨le_refl _, hne2, tryUrl_chars hurl, [], r,
                by simpa using hdec2, by simp⟩
            · obtain ⟨hle, hne, hch, pre, post, hdec, hlen⟩ := hmem p htl
              refine ⟨by omega, hne, hch, u ++ pre, post, ?_, ?_⟩
              · rw [hdec2, hdec]
                simp
              · simp only [List.length_append]
                omega
          · rw [List.pairwise_cons]
            refine ⟨fun p hp => ?_, hpair⟩
            exact (hmem p hp).1

/-! ### Splitting on the first pipe -/

theorem splitFirst_of_not_mem {sep : Char} {l : List Char} (h : sep ∉ l) :
    splitFirst sep l = none := by
  induction l with
  | nil => rfl
  | cons c rest ih =>
    unfold splitFirst
    rw [if_neg (fun he : c = sep => h (he ▸ List.mem_cons_self c rest)),
      ih fun hm => h (List.mem_cons_of_mem c hm)]
    rfl

theorem splitFirst_append {sep : Char} {l1 : List Char} (l2 : List Char)
    (h : sep ∉ l1) : splitFirst sep (l1 ++ sep :: l2) = some (l1, l2) := by
  induction l1 with
  | nil => simp [splitFirst]
  | cons c rest ih =>
    rw [List.cons_append]
    unfold splitFirst
    rw [if_neg (fun he : c = sep => h (he ▸ List.mem_cons_self c rest)),
      ih fun hm => h (List.mem_cons_of_mem c hm)]
    rfl

/-- `escapeHrefSpec` leaves a string free of `"`, `*` and `_` unchanged. -/
theorem escapeHrefSpec_of_clean {esc : EscapeTable} {w : List Char}
    (h1 : '"' ∉ w) (h2 : '*' ∉ w) (h3 : '_' ∉ w) :
    escapeHrefSpec esc w = w := by
  induction w with
  | nil => rfl
  | cons c rest ih =>
    rw [escapeHrefSpec_cons,
      if_neg (fun he : c = '"' => h1 (he ▸ List.mem_cons_self c rest)),
      if_neg (fun he : c = '*' => h2 (he ▸ List.mem_cons_self c rest)),
      if_neg (fun he : c = '_' => h3 (he ▸ List.mem_cons_self c rest)),
      ih (fun hm => h1 (List.mem_cons_of_mem c hm))
        (fun hm => h2 (List.mem_cons_of_mem c hm))
        (fun hm => h3 (List.mem_cons_of_mem c hm))]
    rfl

/-! ## The claims -/

/-- C1: for every free-link match `[[X]]` processed by `FreeLinker`, if
`X` contains a pipe then the replacement has href the text after the
first pipe and title the text before it; with no pipe, href and title
both equal `X`; and over a whole document, the freelink pass produces
one replacement per match, each a function of its own matched span only
(its own captured group, which is the interior of its own `[[...]]`
span), the spans being non-overlapping and in ascending order. -/
theorem claim_C1 (E : Type) (base : String) :
    (∀ (a b : Nat) (l1 l2 : List Char), '|' ∉ l1 →
      FreeLinker_call base ⟨a, b, [String.mk (l1 ++ '|' :: l2)]⟩ =
        PyComponents.pair (String.mk l2) (String.mk l1)) ∧
    (∀ (a b : Nat) (x : String), '|' ∉ x.data →
      FreeLinker_call base ⟨a, b, [x]⟩ = PyComponents.pair x x) ∧
    (∀ text : List Char,
      gatherReplacements
          (LinkRepl.callback fun m =>
            (Except.ok (FreeLinker_call base m) : Except E PyComponents))
          (freelinkMatches text) =
        Except.ok ((freelinkMatches text).map fun m =>
          ((m.start, m.stop), unpackComponents (FreeLinker_call base m))) ∧
      (freelinkMatches text).Pairwise (fun a b => a.stop ≤ b.start) ∧
      ∀ m ∈ freelinkMatches text, ∃ g : List Char,
        m.groups = [String.mk g] ∧ m.stop = m.start + (g.length + 4) ∧
        pySlice text m.start m.stop = '[' :: '[' :: (g ++ [']', ']'])) := by
  refine ⟨?_, ?_, ?_⟩
  · intro a b l1 l2 hpipe
    unfold FreeLinker_call
    simp only [List.getD_cons_zero, String.data]
    rw [splitFirst_append l2 hpipe]
  · intro a b x hpipe
    unfold FreeLinker_call
    simp only [List.getD_cons_zero]
    rw [splitFirst_of_not_mem hpipe]
  · intro text
    obtain ⟨hmem, hpair⟩ := freelinkAux_spec text.length text 0
    refine ⟨gatherReplacements_callback (fun m => rfl) _, ?_, ?_⟩
    · unfold freelinkMatches
      rw [List.pairwise_map]
      exact hpair.imp fun {a b} h => by simpa using h
    · intro m hm
      unfold freelinkMatches at hm
      obtain ⟨p, hp, hmp⟩ := List.mem_map.mp hm
      obtain ⟨hle, pre, post, hdec, hlen⟩ := hmem p hp
      refine ⟨p.2, by rw [← hmp], by rw [← hmp], ?_⟩
      have hpre : pre.length = p.1 := by omega
      have hmid : text = pre ++ ('[' :: '[' :: (p.2 ++ [']', ']'])) ++ post := by
        rw [hdec]
        simp
      rw [← hmp]
      simp only
      have := pySlice_exact pre ('[' :: '[' :: (p.2 ++ [']', ']'])) post
      rw [← hmid] at this
      rw [hpre] at this
      have hml : ('[' :: '[' :: (p.2 ++ [']', ']'])).length = p.2.length + 4 := by
        simp
      rw [hml] at this
      exact this

/-- C1 witness: concrete pipe split, no-pipe case, and the two adjacent
free links `[[A]] [[B]]` giving non-overlapping matches. -/
theorem claim_C1_witness :
    ('|' ∉ "My Page".data ∧
      FreeLinker_call "" ⟨0, 21, [String.mk ("My Page".data ++ '|' :: "somewhere".data)]⟩ =
        PyComponents.pair (String.mk "somewhere".data) (String.mk "My Page".data)) ∧
    ('|' ∉ "A".data ∧
      FreeLinker_call "" ⟨0, 5, ["A"]⟩ = PyComponents.pair "A" "A") ∧
    (freelinkMatches "[[A]] [[B]]".data).Pairwise (fun a b => a.stop ≤ b.start) := by
  have h := claim_C1 Unit ""
  exact ⟨⟨by decide, h.1 0 21 "My Page".data "somewhere".data (by decide)⟩,
    ⟨by decide, h.2.1 0 5 "A" (by decide)⟩,
    (h.2.2 "[[A]] [[B]]".data).2.1⟩

/-- C2 counterexample: with a configured base and tenant support
available, the registry does NOT list the tenant patterns in the order
space-link, space-wiki-link, space-free-link: the `insert(0, ...)` loop
reverses them. -/
theorem claim_C2_counterexample :
    ((render_link_patterns (fun _ => (Except.ok "" : Except Unit String))
        (fun n => n) (some "") true).map Prod.fst) ≠
      [PatternName.spacelink, PatternName.spacewikilink,
       PatternName.spacefreelink, PatternName.freelink,
       PatternName.wikilink, PatternName.barelink] := by
  intro h
  have : [PatternName.spacefreelink, PatternName.spacewikilink,
      PatternName.spacelink, PatternName.freelink,
      PatternName.wikilink, PatternName.barelink] =
      [PatternName.spacelink, PatternName.spacewikilink,
       PatternName.spacefreelink, PatternName.freelink,
       PatternName.wikilink, PatternName.barelink] := by
    rw [← h]
    rfl
  exact absurd this (by decide)

/-- C2 (amended): with a configured wiki link base the registry order is
space-free-link, space-wiki-link, space-link (present only with tenant
support; the `insert(0, ...)` loop reverses the iteration order), then
free-link, then CamelCase wiki-link, then bare-URL link. -/
theorem claim_C2_amended {E : Type} (spaceUri : String → Except E String)
    (encodeName : String → String) (base : String) :
    ((render_link_patterns spaceUri encodeName (some base) true).map Prod.fst) =
      [PatternName.spacefreelink, PatternName.spacewikilink,
       PatternName.spacelink, PatternName.freelink,
       PatternName.wikilink, PatternName.barelink] ∧
    ((render_link_patterns spaceUri encodeName (some base) false).map Prod.fst) =
      [PatternName.freelink, PatternName.wikilink, PatternName.barelink] :=
  ⟨rfl, rfl⟩

/-- C3: with no configured `markdown.wiki_link_base` the registry is
empty, and the substitution pass over an empty registry returns any text
unchanged: no placeholders, no anchors. -/
theorem claim_C3 {E : Type} (spaceUri : String → Except E String)
    (encodeName : String → String) (tenantSupport : Bool) :
    render_link_patterns spaceUri encodeName none tenantSupport = [] ∧
    ∀ (esc : EscapeTable) (hashText : List Char → List Char) (text : List Char),
      do_link_patterns esc hashText
          ([] : List ((List Char → List LinkMatch) × LinkRepl E)) text =
        Except.ok text :=
  ⟨rfl, fun _ _ _ => rfl⟩

/-- C4: for every match processed by the substitution engine (ascending
non-overlapping in-bounds spans, as `finditer` yields them), the anchor
recorded under its placeholder hash and spliced (via that hash) over the
matched span is exactly `<a href="E">T</a>`, where `E` is the strategy's
href with every `"` replaced by `&quot;` and every `*` and `_` replaced
by the converter's escape-table entry for that character
(`escapeHrefSpec`), and `T` is the strategy's title, or the raw matched
source substring of the pass's text whenever the title is `None` or
empty (`backfillTitle`).  The hypothesis that the `*` escape-table entry
contains no underscore holds for markdown2's md5-token entries and makes
the code's sequential `.replace` chain coincide with this per-character
description. -/
theorem claim_C4 (esc : EscapeTable) (hashText : List Char → List Char)
    (hstar : '_' ∉ esc.star.data) (text : List Char)
    (reps : List ((Nat × Nat) × String × Option String))
    (m : List (List Char × List Char)) (hasc : AscSpans text reps) :
    applyReplacements esc hashText text m reps =
      (reps.reverse.foldl (fun t r => pySpliceAt t r.1.1 r.1.2
          (hashText (specLink esc text r))) text,
       reps.reverse.foldl (fun mm r => dictInsert mm
          (hashText (specLink esc text r)) (specLink esc text r)) m) ∧
    ∀ r : (Nat × Nat) × String × Option String,
      specLink esc text r =
        "<a href=\"".data ++ escapeHrefSpec esc r.2.1.data ++ "\">".data ++
          backfillTitle text r.1.1 r.1.2 r.2.2 ++ "</a>".data :=
  ⟨applyReplacements_spec esc hashText hstar hasc, fun _ => rfl⟩

/-- C4 witness: a concrete escape table, hash, text and single in-bounds
replacement discharging both hypotheses. -/
theorem claim_C4_witness :
    ('_' ∉ ("S" : String).data ∧ AscSpans "[[x]]".data [((0, 5), "x", some "x")]) ∧
    applyReplacements ⟨"S", "U"⟩ (fun l => 'H' :: l) "[[x]]".data []
        [((0, 5), "x", some "x")] =
      ([((0, 5), ("x" : String), some ("x" : String))].reverse.foldl
          (fun t r => pySpliceAt t r.1.1 r.1.2
            ((fun l => 'H' :: l) (specLink ⟨"S", "U"⟩ "[[x]]".data r))) "[[x]]".data,
       [((0, 5), ("x" : String), some ("x" : String))].reverse.foldl
          (fun mm r => dictInsert mm
            ((fun l => 'H' :: l) (specLink ⟨"S", "U"⟩ "[[x]]".data r))
            (specLink ⟨"S", "U"⟩ "[[x]]".data r)) []) := by
  have hstar : '_' ∉ ("S" : String).data := by decide
  have hasc : AscSpans "[[x]]".data [((0, 5), "x", some "x")] := by
    constructor
    · exact List.pairwise_singleton _ _
    · intro r hr
      rw [List.mem_singleton.mp hr]
      exact ⟨by decide, by decide⟩
  exact ⟨⟨hstar, hasc⟩,
    (claim_C4 ⟨"S", "U"⟩ (fun l => 'H' :: l) hstar "[[x]]".data _ [] hasc).1⟩

/-- C5 counterexample: a CamelCase word containing `_` (allowed by the
`\w+` tail of the wikilink pattern).  With the converter escape table
instantiated at representative entries (markdown2's real entries are
salted md5 tokens, never the character itself), the engine's anchor has
href `AbCdUe` — the matched word with its underscore replaced by the
escape-table entry — not the matched word `AbCd_e` unescaped. -/
theorem claim_C5_counterexample :
    do_link_patterns ⟨"S", "U"⟩ (fun l => l)
        [(wikilinkMatches, (LinkRepl.template : LinkRepl Unit))] " AbCd_e".data =
      Except.ok " <a href=\"AbCdUe\">AbCd_e</a>".data ∧
    (" <a href=\"AbCdUe\">AbCd_e</a>".data : List Char) ≠
      " <a href=\"AbCd_e\">AbCd_e</a>".data :=
  ⟨rfl, by decide⟩

/-- C5 (amended): for every wikilink or barelink match, group 1 (what
the static template `r'\1'` expands to, i.e. the href before escaping)
is exactly the matched span's text, the backfilled label is that same
matched text, and the anchor's href is the matched text with the
escape-table substitution applied — which, since such matches can
contain neither `"` nor `*`, is the matched text verbatim exactly when
it contains no `_`. -/
theorem claim_C5_amended (E : Type) (esc : EscapeTable) (text : List Char) :
    (∀ m ∈ wikilinkMatches text,
      matchExpandBackref1 m = String.mk (pySlice text m.start m.stop) ∧
      '"' ∉ pySlice text m.start m.stop ∧ '*' ∉ pySlice text m.start m.stop) ∧
    (∀ m ∈ barelinkMatches text,
      matchExpandBackref1 m = String.mk (pySlice text m.start m.stop) ∧
      '"' ∉ pySlice text m.start m.stop ∧ '*' ∉ pySlice text m.start m.stop) ∧
    (∀ ms : List LinkMatch,
      gatherReplacements (LinkRepl.template : LinkRepl E) ms =
        Except.ok (ms.map fun m =>
          ((m.start, m.stop), matchExpandBackref1 m, none))) ∧
    (∀ (a b : Nat) (w : String), specLink esc text ((a, b), w, none) =
      anchorHtml (escapeHrefSpec esc w.data) (pySlice text a b)) ∧
    (∀ w : List Char, '"' ∉ w → '*' ∉ w → '_' ∉ w →
      escapeHrefSpec esc w = w) := by
  refine ⟨?_, ?_, fun ms => gatherReplacements_template ms,
    fun a b w => rfl, fun w h1 h2 h3 => escapeHrefSpec_of_clean h1 h2 h3⟩
  · intro m hm
    unfold wikilinkMatches at hm
    obtain ⟨p, hp, hmp⟩ := List.mem_map.mp hm
    obtain ⟨hmem, _⟩ := wikilinkAux_spec text.length text 0 false
    obtain ⟨hle, hne, hch, pre, post, hdec, hlen⟩ := hmem p hp
    have hpre : pre.length = p.1 := by omega
    have hslice : pySlice text p.1 (p.1 + p.2.length) = p.2 := by
      have hdec2 : text = pre ++ p.2 ++ post := by
        rw [hdec]
        simp
      have hx := pySlice_exact pre p.2 post
      rw [← hdec2, hpre] at hx
      exact hx
    rw [← hmp]
    dsimp only
    rw [hslice]
    refine ⟨rfl, ?_, ?_⟩
    · intro hq
      exact absurd (hch '"' hq) (by decide)
    · intro hq
      exact absurd (hch '*' hq) (by decide)
  · intro m hm
    unfold barelinkMatches at hm
    obtain ⟨p, hp, hmp⟩ := List.mem_map.mp hm
    obtain ⟨hmem, _⟩ := barelinkAux_spec text.length text 0 none none
    obtain ⟨hle, hne, hch, pre, post, hdec, hlen⟩ := hmem p hp
    have hpre : pre.length = p.1 := by omega
    have hslice : pySlice text p.1 (p.1 + p.2.length) = p.2 := by
      have hdec2 : text = pre ++ p.2 ++ post := by
        rw [hdec]
        simp
      have hx := pySlice_exact pre p.2 post
      rw [← hdec2, hpre] at hx
      exact hx
    rw [← hmp]
    dsimp only
    rw [hslice]
    refine ⟨rfl, ?_, ?_⟩
    · intro hq
      rcases hch '"' hq with h | h
      · exact absurd h (by decide)
      · exact absurd h (by decide)
    · intro hq
      rcases hch '*' hq with h | h
      · exact absurd h (by decide)
      · exact absurd h (by decide)

/-- C5 witness: a concrete text where the wikilink match's expansion is
its own span's text, and a concrete clean word that escapes to itself. -/
theorem claim_C5_amended_witness :
    (∀ m ∈ wikilinkMatches " SomeLink".data,
      matchExpandBackref1 m =
        String.mk (pySlice " SomeLink".data m.start m.stop)) ∧
    escapeHrefSpec ⟨"S", "U"⟩ "SomeLink".data = "SomeLink".data := by
  have h := claim_C5_amended Unit ⟨"S", "U"⟩ " SomeLink".data
  exact ⟨fun m hm => (h.1 m hm).1,
    h.2.2.2.2 "SomeLink".data (by decide) (by decide) (by decide)⟩

/-- C6: `SpaceLinker` on a one-group match with tenant `s` returns
`(space_uri s, "@" ++ s)`; on a two-group match `(p, s)` it splits `p`
on the first pipe into label and page (label = page = p with no pipe)
and returns `(space_uri s ++ encode_name page, label)`. -/
theorem claim_C6 {E : Type} (spaceUri : String → Except E String)
    (encodeName : String → String) :
    (∀ (a b : Nat) (s url : String), spaceUri s = Except.ok url →
      SpaceLinker_call spaceUri encodeName ⟨a, b, [s]⟩ =
        Except.ok (PyComponents.pair url ("@" ++ s))) ∧
    (∀ (a b : Nat) (l1 l2 : List Char) (s url : String), '|' ∉ l1 →
      spaceUri s = Except.ok url →
      SpaceLinker_call spaceUri encodeName
          ⟨a, b, [String.mk (l1 ++ '|' :: l2), s]⟩ =
        Except.ok (PyComponents.pair (url ++ encodeName (String.mk l2))
          (String.mk l1))) ∧
    (∀ (a b : Nat) (p s url : String), '|' ∉ p.data →
      spaceUri s = Except.ok url →
      SpaceLinker_call spaceUri encodeName ⟨a, b, [p, s]⟩ =
        Except.ok (PyComponents.pair (url ++ encodeName p) p)) := by
  refine ⟨?_, ?_, ?_⟩
  · intro a b s url h
    simp [SpaceLinker_call, h]
  · intro a b l1 l2 s url hpipe h
    simp [SpaceLinker_call, splitFirst_append l2 hpipe, h]
  · intro a b p s url hpipe h
    simp [SpaceLinker_call, splitFirst_of_not_mem hpipe, h]

/-- C6 witness: a concrete resolver and both match shapes. -/
theorem claim_C6_witness :
    SpaceLinker_call
        (fun s => (Except.ok ("http://x/" ++ s) : Except Unit String))
        (fun p => p) ⟨0, 5, ["acme"]⟩ =
      Except.ok (PyComponents.pair "http://x/acme" ("@" ++ "acme")) ∧
    SpaceLinker_call
        (fun s => (Except.ok ("http://x/" ++ s) : Except Unit String))
        (fun p => p) ⟨0, 9, [String.mk ("L".data ++ '|' :: "pg".data), "acme"]⟩ =
      Except.ok (PyComponents.pair ("http://x/acme" ++ String.mk "pg".data)
        (String.mk "L".data)) := by
  have h := claim_C6
    (fun s => (Except.ok ("http://x/" ++ s) : Except Unit String)) (fun p => p)
  exact ⟨h.1 0 5 "acme" "http://x/acme" rfl,
    h.2.1 0 9 "L".data "pg".data "acme" "http://x/acme" (by decide) rfl⟩

/-- C7 counterexample: a callback returning the two-character scalar
string `"ab"` does NOT have its whole value taken as the href with a
`None` title: Python's `href, title = components` unpacks a 2-character
string into its two characters without raising `ValueError`, so the
engine yields href `"a"` and title `"b"`. -/
theorem claim_C7_counterexample :
    gatherReplacements (LinkRepl.callback fun _ =>
        (Except.ok (PyComponents.str "ab") : Except Unit PyComponents))
      [⟨0, 5, ["x"]⟩] =
      Except.ok [((0, 5), "a", some "b")] ∧
    (Except.ok [((0, 5), ("a" : String), some ("b" : String))] :
        Except Unit (List ((Nat × Nat) × String × Option String))) ≠
      Except.ok [((0, 5), "ab", none)] := by
  refine ⟨rfl, fun h => ?_⟩
  exact absurd (Except.ok.inj h) (by decide)

/-- C7 (amended): a callback returning a scalar string of length other
than two fails to unpack with `ValueError`, so the engine takes the
whole value as the href, leaves the title `None` (later backfilled from
the matched span) and does not raise; a two-character scalar is instead
unpacked into its two characters (href = first, title = second), also
without raising. -/
theorem claim_C7_amended {E : Type} :
    (∀ (f : LinkMatch → Except E PyComponents) (m : LinkMatch) (s : String),
      f m = Except.ok (PyComponents.str s) → s.data.length ≠ 2 →
      replStep (LinkRepl.callback f) m =
        Except.ok ((m.start, m.stop), s, none)) ∧
    (∀ (f : LinkMatch → Except E PyComponents) (m : LinkMatch) (a b : Char),
      f m = Except.ok (PyComponents.str (String.mk [a, b])) →
      replStep (LinkRepl.callback f) m =
        Except.ok ((m.start, m.stop), String.mk [a], some (String.mk [b]))) ∧
    (∀ (text : List Char) (a b : Nat),
      backfillTitle text a b none = pySlice text a b) := by
  refine ⟨?_, ?_, fun _ _ _ => rfl⟩
  · intro f m s hf hlen
    obtain ⟨sd⟩ := s
    simp only [replStep, hf]
    match sd with
    | [] => rfl
    | [a] => rfl
    | [a, b] => exact absurd rfl hlen
    | a :: b :: c :: r => rfl
  · intro f m a b hf
    simp only [replStep, hf]
    rfl

/-- C7 witness: concrete callbacks returning a 3-character scalar and a
2-character scalar. -/
theorem claim_C7_witness :
    replStep (LinkRepl.callback fun _ =>
        (Except.ok (PyComponents.str "abc") : Except Unit PyComponents))
      ⟨0, 5, ["x"]⟩ = Except.ok ((0, 5), "abc", none) ∧
    replStep (LinkRepl.callback fun _ =>
        (Except.ok (PyComponents.str (String.mk ['a', 'b'])) :
          Except Unit PyComponents))
      ⟨0, 5, ["x"]⟩ =
      Except.ok ((0, 5), String.mk ['a'], some (String.mk ['b'])) := by
  have h := @claim_C7_amended Unit
  exact ⟨h.1 _ ⟨0, 5, ["x"]⟩ "abc" rfl (by decide),
    h.2.1 _ ⟨0, 5, ["x"]⟩ 'a' 'b' rfl⟩

/-- C8: a tenant-URL resolution error propagates unchanged out of
`SpaceLinker` (both match shapes), and a strategy error on ANY match of
ANY registry pattern — all earlier patterns processed and all earlier
matches of that pattern resolved successfully, as in a run where the
first raised exception propagates — surfaces unchanged out of the whole
`_do_link_patterns` call, which then produces no text at all (the
`Except` is an error, not a partial output). -/
theorem claim_C8 {E : Type} (spaceUri : String → Except E String)
    (encodeName : String → String) :
    (∀ (m : LinkMatch) (e : E) (s : String), m.groups = [s] →
      spaceUri s = Except.error e →
      SpaceLinker_call spaceUri encodeName m = Except.error e) ∧
    (∀ (m : LinkMatch) (e : E) (p s : String), m.groups = [p, s] →
      spaceUri s = Except.error e →
      SpaceLinker_call spaceUri encodeName m = Except.error e) ∧
    (∀ (esc : EscapeTable) (hashText : List Char → List Char)
        (ps1 ps2 : List ((List Char → List LinkMatch) × LinkRepl E))
        (matcher : List Char → List LinkMatch)
        (f : LinkMatch → Except E PyComponents)
        (text t1 : List Char) (m1 : List (List Char × List Char))
        (ms1 : List LinkMatch) (mm : LinkMatch) (ms2 : List LinkMatch) (e : E),
      runPatterns esc hashText ps1 text [] = Except.ok (t1, m1) →
      matcher t1 = ms1 ++ mm :: ms2 →
      (∀ m ∈ ms1, ∃ c, f m = Except.ok c) →
      f mm = Except.error e →
      do_link_patterns esc hashText
          (ps1 ++ (matcher, LinkRepl.callback f) :: ps2) text =
        Except.error e) := by
  refine ⟨?_, ?_, ?_⟩
  · intro m e s hg he
    simp [SpaceLinker_call, hg, he]
  · intro m e p s hg he
    simp [SpaceLinker_call, hg, he]
  · intro esc hashText ps1 ps2 matcher f text t1 m1 ms1 mm ms2 e hrun hm hok hf
    apply do_link_patterns_error
    apply runPatterns_error_append esc hashText ps1 hrun
    rw [hm]
    exact gatherReplacements_error_mid ms1 hok hf

/-- C8 witness: an always-failing resolver surfacing from `SpaceLinker`,
and a registry whose second pattern's SECOND match hits a failing tenant
resolution after the first pattern and the first match succeed — the
error value surfaces from the whole pass. -/
theorem claim_C8_witness :
    SpaceLinker_call (fun _ => (Except.error "boom" : Except String String))
        (fun p => p) ⟨0, 5, ["acme"]⟩ = Except.error "boom" ∧
    do_link_patterns ⟨"S", "U"⟩ (fun l => l)
        ([(wikilinkMatches, (LinkRepl.template : LinkRepl String))] ++
          (freelinkMatches,
            LinkRepl.callback fun m =>
              SpaceLinker_call
                (fun s =>
                  if s = "a" then (Except.error "boom" : Except String String)
                  else Except.ok "http://x/")
                (fun p => p) m) :: [])
        "[[ok]] [[a]]".data = Except.error "boom" := by
  have h := claim_C8 (fun _ => (Except.error "boom" : Except String String))
    (fun p => p)
  have h2 := claim_C8
    (fun s =>
      if s = "a" then (Except.error "boom" : Except String String)
      else Except.ok "http://x/")
    (fun p => p)
  refine ⟨h.1 ⟨0, 5, ["acme"]⟩ "boom" "acme" rfl rfl, ?_⟩
  refine h2.2.2 ⟨"S", "U"⟩ (fun l => l)
    [(wikilinkMatches, LinkRepl.template)] [] freelinkMatches _
    "[[ok]] [[a]]".data "[[ok]] [[a]]".data []
    [⟨0, 6, ["ok"]⟩] ⟨7, 12, ["a"]⟩ [] "boom" rfl rfl ?_ rfl
  intro m hm
  rw [List.mem_singleton.mp hm]
  exact ⟨PyComponents.pair "http://x/" ("@" ++ "ok"), rfl⟩

/-- C9 counterexample: the final expansion pass does NOT always replace
exactly the spliced placeholders.  In `http://e.c[[a]]` the freelink
pass splices a placeholder directly after the URL; the placeholder's
token characters lie in the bare-URL character class (as do markdown2's
md5 hex tokens), so the barelink pass matches URL-plus-token as one
span, swallows the placeholder and copies it into its own anchor's href
and label.  The final pass processes the dict in insertion order, so
the swallowed token — whose pass is already over when the second anchor
is expanded — survives verbatim in the output, and the free link's
anchor never appears.  The hash used is injective with tokens
(`qz…q…zq`) absent from the document, so this is not a hash collision.
The first conjunct certifies that the leaked token is a generated
placeholder recorded in the map; the second exhibits it as a substring
of the final output. -/
theorem claim_C9_counterexample :
    (match runPatterns ⟨"S", "U"⟩
        (fun l => 'q' :: 'z' :: (List.replicate l.length 'q' ++ ['z', 'q']))
        [(freelinkMatches, LinkRepl.callback fun m =>
            (Except.ok (FreeLinker_call "" m) : Except Unit PyComponents)),
         (wikilinkMatches, LinkRepl.template),
         (barelinkMatches, LinkRepl.template)]
        "http://e.c[[a]]".data [] with
     | Except.ok st => decide
        (((fun l => 'q' :: 'z' :: (List.replicate l.length 'q' ++ ['z', 'q']))
            "<a href=\"a\">a</a>".data,
          ("<a href=\"a\">a</a>".data : List Char)) ∈ st.2)
     | Except.error _ => false) = true ∧
    (match do_link_patterns ⟨"S", "U"⟩
        (fun l => 'q' :: 'z' :: (List.replicate l.length 'q' ++ ['z', 'q']))
        [(freelinkMatches, LinkRepl.callback fun m =>
            (Except.ok (FreeLinker_call "" m) : Except Unit PyComponents)),
         (wikilinkMatches, LinkRepl.template),
         (barelinkMatches, LinkRepl.template)]
        "http://e.c[[a]]".data with
     | Except.ok out => isSubOf
        ((fun l => 'q' :: 'z' :: (List.replicate l.length 'q' ++ ['z', 'q']))
          "<a href=\"a\">a</a>".data) out
     | Except.error _ => false) = true :=
  ⟨rfl, rfl⟩

/-- C9 (amended): within one run of the engine's pattern loop, under
the converter contract the spec assigns to the opaque hashing utility —
injective tokens that never occur in the document text — every recorded
placeholder key is the hash of its own anchor, keys are pairwise
distinct, distinct anchors never share a key, and no key occurs as a
substring of the untransformed input text; the final pass then merely
replaces each recorded token in dict insertion order, which is not
guaranteed to replace exactly the spliced placeholders (a placeholder
swallowed by a later pattern's match leaks unexpanded). -/
theorem claim_C9 {E : Type} (hashText : List Char → List Char)
    (hinj : ∀ a b, hashText a = hashText b → a = b) (esc : EscapeTable)
    (link_patterns : List ((List Char → List LinkMatch) × LinkRepl E))
    (text t : List Char) (m : List (List Char × List Char))
    (hrun : runPatterns esc hashText link_patterns text [] = Except.ok (t, m))
    (hfresh : ∀ s : List Char, isSubOf (hashText s) text = false) :
    (∀ kv ∈ m, kv.1 = hashText kv.2) ∧
    KeysNodup m ∧
    (∀ kv1 ∈ m, ∀ kv2 ∈ m, kv1.2 ≠ kv2.2 → kv1.1 ≠ kv2.1) ∧
    (∀ kv ∈ m, isSubOf kv.1 text = false) ∧
    do_link_patterns esc hashText link_patterns text =
      Except.ok (m.foldl (fun acc kv => pyReplaceStr kv.1 kv.2 acc) t) := by
  have hinv := runPatterns_inv esc hashText link_patterns text [] t m
    (fun kv hkv => absurd hkv (List.not_mem_nil kv))
    (by simp [KeysNodup]) hrun
  refine ⟨hinv.1, hinv.2, ?_, ?_, ?_⟩
  · intro kv1 h1 kv2 h2 hne heq
    apply hne
    apply hinj
    rw [← hinv.1 kv1 h1, ← hinv.1 kv2 h2]
    exact heq
  · intro kv hkv
    rw [hinv.1 kv hkv]
    exact hfresh kv.2
  · unfold do_link_patterns
    rw [hrun]

/-- C9 witness: an injective hash whose tokens start with a character
absent from the document, and a concrete freelink run. -/
theorem claim_C9_witness :
    runPatterns ⟨"S", "U"⟩ (fun l => 'H' :: l)
        [(freelinkMatches,
          LinkRepl.callback fun m =>
            (Except.ok (FreeLinker_call "" m) : Except Unit PyComponents))]
        "[[A]]".data [] =
      Except.ok ('H' :: "<a href=\"A\">A</a>".data,
        [('H' :: "<a href=\"A\">A</a>".data, "<a href=\"A\">A</a>".data)]) ∧
    (∀ kv ∈ [('H' :: "<a href=\"A\">A</a>".data, "<a href=\"A\">A</a>".data)],
      isSubOf kv.1 "[[A]]".data = false) := by
  have hinj : ∀ a b : List Char, 'H' :: a = 'H' :: b → a = b := by
    intro a b h
    injection h
  have hfresh : ∀ s : List Char, isSubOf ('H' :: s) "[[A]]".data = false :=
    fun s => isSubOf_false_of_head_not_mem (by decide)
  have hrun : runPatterns ⟨"S", "U"⟩ (fun l => 'H' :: l)
      [(freelinkMatches,
        LinkRepl.callback fun m =>
          (Except.ok (FreeLinker_call "" m) : Except Unit PyComponents))]
      "[[A]]".data [] =
      Except.ok ('H' :: "<a href=\"A\">A</a>".data,
        [('H' :: "<a href=\"A\">A</a>".data, "<a href=\"A\">A</a>".data)]) := rfl
  have h := claim_C9 (fun l => 'H' :: l) hinj ⟨"S", "U"⟩
    [(freelinkMatches,
      LinkRepl.callback fun m =>
        (Except.ok (FreeLinker_call "" m) : Except Unit PyComponents))]
    "[[A]]".data ('H' :: "<a href=\"A\">A</a>".data)
    [('H' :: "<a href=\"A\">A</a>".data, "<a href=\"A\">A</a>".data)]
    hrun hfresh
  exact ⟨hrun, h.2.2.2.1⟩

/-- C10: escaping is applied only to the href.  The title placed between
the attribute close and `</a>` — whether supplied by the strategy or
backfilled from the matched span — is inserted verbatim, with `"`, `*`,
`_` and `<` untouched. -/
theorem claim_C10 (esc : EscapeTable) (hashText : List Char → List Char)
    (text : List Char) (m : List (List Char × List Char))
    (a b : Nat) (href t : String) (ht : t.data ≠ []) :
    (spliceReplacement esc hashText (text, m) ((a, b), href, some t)).2 =
      dictInsert m
        (hashText ("<a href=\"".data ++ escapeHref esc href.data ++
          "\">".data ++ t.data ++ "</a>".data))
        ("<a href=\"".data ++ escapeHref esc href.data ++ "\">".data ++
          t.data ++ "</a>".data) ∧
    (spliceReplacement esc hashText (text, m) ((a, b), href, none)).2 =
      dictInsert m
        (hashText ("<a href=\"".data ++ escapeHref esc href.data ++
          "\">".data ++ pySlice text a b ++ "</a>".data))
        ("<a href=\"".data ++ escapeHref esc href.data ++ "\">".data ++
          pySlice text a b ++ "</a>".data) := by
  constructor
  · unfold spliceReplacement anchorHtml backfillTitle
    dsimp only
    rw [if_neg ht]
  · rfl

/-- C10 witness: a title containing `"`, `*`, `_` and `<`, inserted
verbatim. -/
theorem claim_C10_witness :
    (spliceReplacement ⟨"S", "U"⟩ (fun l => l) ("abc".data, [])
        ((0, 2), "h", some "\"*_<L")).2 =
      dictInsert []
        ((fun l : List Char => l) ("<a href=\"".data ++
          escapeHref ⟨"S", "U"⟩ ("h" : String).data ++ "\">".data ++
          ("\"*_<L" : String).data ++ "</a>".data))
        ("<a href=\"".data ++ escapeHref ⟨"S", "U"⟩ ("h" : String).data ++
          "\">".data ++ ("\"*_<L" : String).data ++ "</a>".data) :=
  (claim_C10 ⟨"S", "U"⟩ (fun l => l) "abc".data [] 0 2 "h" "\"*_<L"
    (by decide)).1
